import Mathlib

/-!
A shallow embedding of the flight-search program (src/flighthandler.py,
src/csvreader.py) and proofs about it.

Modelling conventions:
* `datetime` values are integers (minutes); `timedelta(hours=h)` is `60*h`.
  The `strptime` round trip on validated date strings is the identity, so a
  `Flight` stores its departure/arrival directly as the parsed instant.
* Python `float` arithmetic on prices is idealised as exact rational
  arithmetic (`Rat`); the claims under study concern the `int()` conversion
  and the summation structure, not IEEE rounding.
* Numeric CSV cells are modelled by `NumStr`: a sign, an integer part and an
  optional fractional part (digit block and digit count).  `float(s)` always
  succeeds on such a cell and yields `NumStr.val`; `int(s)` succeeds exactly
  when the cell has no decimal point (`frac = none`), as in Python, where
  `int("9.90")` raises `ValueError`.
* Python exceptions are explicit: `PyResult` is `ok` or `err` with the
  exception kind (`KeyError` from `self.graph[...]`, `IndexError` from
  `trip[-1]`).  Recursion in `explore` is bounded by an explicit fuel; the
  fuel chosen by `find_trips` exceeds the depth the Python recursion can
  reach, and all theorems about successful runs hold for every fuel.
* A Python `set` of strings is a duplicate-free list: `insertStr` adds only
  if absent, `removeStr` removes the element.
-/

namespace FlightSearch

/-- One numeric CSV cell: sign, integer part, optional fractional digit block
`(value, number of digits)`.  `NumStr false 9 (some (90, 2))` is "9.90". -/
structure NumStr where
  neg : Bool
  intPart : Nat
  frac : Option (Nat × Nat)
deriving DecidableEq, Repr

/-- Python `float(s)`: the exact decimal value of the cell
(written with `mkRat` so that the kernel can evaluate it). -/
def NumStr.val (s : NumStr) : Rat :=
  let mag : Rat :=
    match s.frac with
    | none => (s.intPart : Rat)
    | some dk => mkRat ((s.intPart : Int) * (10 : Int) ^ dk.2 + (dk.1 : Int)) ((10 : Nat) ^ dk.2)
  if s.neg then -mag else mag

/-- Python `int(s)`: succeeds only when the cell has no decimal point
(`int("9.90")` and `int("9.0")` both raise `ValueError`). -/
def NumStr.pyInt (s : NumStr) : Option Int :=
  match s.frac with
  | none => some ((if s.neg then -1 else 1) * (s.intPart : Int))
  | some _ => none

/-- One already-parsed CSV row as handed to the graph builder
(`csvreader.FlightCSVReader.read` yields these as string dicts). -/
structure FlightRecord where
  flight_no : String
  origin : String
  destination : String
  departure : Int
  arrival : Int
  base_price : NumStr
  bag_price : NumStr
  bags_allowed : NumStr
deriving DecidableEq, Repr

/-- `csvreader.FlightRowValidator`: `check_string` on the three codes,
`check_float` on both prices, `check_number` on `bags_allowed`
(date cells are already parsed instants in this model). -/
def validRecord (r : FlightRecord) : Bool :=
  (!(r.flight_no == "")) && (!(r.origin == "")) && (!(r.destination == "")) &&
  decide (0 ≤ r.base_price.val) && decide (0 ≤ r.bag_price.val) &&
  (match r.bags_allowed.pyInt with
   | some n => decide (0 ≤ n)
   | none => false)

/-- `flighthandler.Flight` after `__post_init__` ran: `base_price` went
through `float()`, `bag_price` and `bags_allowed` through `int()`. -/
structure Flight where
  flight_no : String
  origin : String
  destination : String
  departure : Int
  arrival : Int
  base_price : Rat
  bag_price : Int
  bags_allowed : Int
deriving DecidableEq, Repr

/-- `Flight(**flight_data)` with `__post_init__`: `none` models the
`ValueError` raised by `int()` on a cell with a decimal point. -/
def mkFlight (r : FlightRecord) : Option Flight :=
  match r.bag_price.pyInt, r.bags_allowed.pyInt with
  | some bp, some ba =>
      some { flight_no := r.flight_no, origin := r.origin,
             destination := r.destination, departure := r.departure,
             arrival := r.arrival, base_price := r.base_price.val,
             bag_price := bp, bags_allowed := ba }
  | _, _ => none

/-- `Flight.get_full_price`. -/
def Flight.get_full_price (f : Flight) (bags_count : Int) : Rat :=
  f.base_price + (bags_count : Rat) * (f.bag_price : Rat)

/-- `Flight.get_travel_time` (a `timedelta`, in minutes). -/
def Flight.get_travel_time (f : Flight) : Int :=
  f.arrival - f.departure

/-- The adjacency dict `FlightGraph.graph`, in insertion order. -/
abbrev Graph := List (String × List Flight)

/-- `self.graph.get(k)` / `self.graph[k]` (`none` = `KeyError`). -/
def graphGet (g : Graph) (k : String) : Option (List Flight) :=
  (g.find? (fun p => p.fst == k)).map Prod.snd

/-- One step of `create_graph`: append the flight to its origin's bucket,
creating the bucket on first use. -/
def graphInsert : Graph → Flight → Graph
  | [], f => [(f.origin, [f])]
  | (k, fs) :: rest, f =>
    if k = f.origin then (k, fs ++ [f]) :: rest
    else (k, fs) :: graphInsert rest f

/-- The loop of `FlightGraph.create_graph`. -/
def createGraphAux : Graph → List FlightRecord → Option Graph
  | g, [] => some g
  | g, r :: rs =>
    match mkFlight r with
    | none => none
    | some f => createGraphAux (graphInsert g f) rs

/-- `FlightGraph.create_graph` (also run by `__init__`). -/
def create_graph (rs : List FlightRecord) : Option Graph :=
  createGraphAux [] rs

/-- An installed layover rule is any predicate on two adjacent flights
(the `LayoverRule` protocol). -/
abbrev LayoverPred := Flight → Flight → Bool

/-- `DefaultLayoverRule.validate`: both bounds inclusive, in hours. -/
def defaultLayoverRule (min_layover max_layover : Int) : LayoverPred :=
  fun prev nxt =>
    decide (60 * min_layover ≤ nxt.departure - prev.arrival) &&
    decide (nxt.departure - prev.arrival ≤ 60 * max_layover)

/-- `FlightGraph.is_valid_layover`: no installed rule accepts everything. -/
def is_valid_layover (rule : Option LayoverPred) (prev nxt : Flight) : Bool :=
  match rule with
  | some r => r prev nxt
  | none => true

/-- Python `set.add` on a duplicate-free list. -/
def insertStr (a : String) (l : List String) : List String :=
  if a ∈ l then l else a :: l

/-- Python `set.remove` (always called with the element present). -/
def removeStr (a : String) (l : List String) : List String :=
  l.filter (fun b => !(b == a))

/-- The exception kinds the Python code can raise during a query. -/
inductive PyErr where
  | keyError
  | indexError
  | outOfFuel
deriving DecidableEq, Repr

/-- Result of running a fragment of Python code that may raise. -/
inductive PyResult (α : Type) where
  | ok : α → PyResult α
  | err : PyErr → PyResult α
deriving DecidableEq, Repr

/-- One iteration of the `for next_flight in self.graph[flight.destination]`
loop inside `explore`: on the guard (`destination not yet visited` and
`layover valid`) the recursive exploration `recur` runs, threading the
visited set and the trips list; an exception aborts the rest of the loop. -/
def exploreStep (rule : Option LayoverPred) (flight : Flight)
    (recur : Flight → List String → List (List Flight) →
      PyResult (List String × List (List Flight))) :
    PyResult (List String × List (List Flight)) → Flight →
      PyResult (List String × List (List Flight)) :=
  fun st nf =>
    match st with
    | .err e => .err e
    | .ok vt =>
      if nf.destination ∉ vt.1 ∧ is_valid_layover rule flight nf = true then
        recur nf vt.1 vt.2
      else
        .ok vt

/-- `FlightGraph.explore`.  State threading: `visited` and `trips` are the
mutated set/list; `current` is the trip prefix *excluding* `flight` (the
`append`/`pop` pair is netted out, so `current` need not be returned).
Returns the final `visited` set and `trips` list. -/
def explore (g : Graph) (rule : Option LayoverPred) (dest : String) :
    Nat → Flight → List String → List Flight → List (List Flight) →
    PyResult (List String × List (List Flight))
  | 0, _, _, _, _ => .err .outOfFuel
  | fuel + 1, flight, visited, current, trips =>
    let visited1 := insertStr flight.destination (insertStr flight.origin visited)
    let current1 := current ++ [flight]
    if flight.destination = dest then
      -- is_correct_trip stays True: record the trip, release the airport
      .ok (removeStr flight.destination visited1, trips ++ [current1])
    else
      -- is_correct_trip becomes False: the airport stays visited
      match graphGet g flight.destination with
      | none => .err .keyError
      | some nexts =>
        nexts.foldl
          (exploreStep rule flight
            (fun nf v t => explore g rule dest fuel nf v current1 t))
          (.ok (visited1, trips))

/-- Fuel that exceeds any depth `explore` can reach on `g` (each recursive
call marks a previously unvisited airport, so depth is at most the number
of flights); it never runs out on runs the Python program performs. -/
def graphFuel (g : Graph) : Nat :=
  (g.map (fun p => p.snd.length)).sum + 2

/-- The `for flight in self.graph.get(origin, [])` loop of `find_trips`:
each starting flight gets a fresh visited set and path prefix. -/
def findTripsLoop (g : Graph) (rule : Option LayoverPred) (dest : String)
    (start_date : Int) :
    List Flight → List (List Flight) → PyResult (List (List Flight))
  | [], trips => .ok trips
  | f :: rest, trips =>
    if start_date ≤ f.departure then
      match explore g rule dest (graphFuel g) f [] [] trips with
      | .err e => .err e
      | .ok vt => findTripsLoop g rule dest start_date rest vt.2
    else
      findTripsLoop g rule dest start_date rest trips

/-- `FlightGraph.find_trips`. -/
def find_trips (g : Graph) (rule : Option LayoverPred)
    (origin destination : String) (start_date : Int) :
    PyResult (List (List Flight)) :=
  findTripsLoop g rule destination start_date ((graphGet g origin).getD []) []

/-- The outer loop of `find_trips_reverse`: for each outbound trip, look up
its last flight (`trip[-1]`), run the second forward search from its arrival
time, and append one concatenation per return trip. -/
def findTripsRevLoop (g : Graph) (rule : Option LayoverPred)
    (origin destination : String) :
    List (List Flight) → List (List Flight) → PyResult (List (List Flight))
  | [], acc => .ok acc
  | trip :: rest, acc =>
    match trip.getLast? with
    | none => .err .indexError
    | some lastF =>
      match find_trips g rule destination origin lastF.arrival with
      | .err e => .err e
      | .ok rts =>
        findTripsRevLoop g rule origin destination rest
          (acc ++ rts.map (fun rt => trip ++ rt))

/-- `FlightGraph.find_trips_reverse`. -/
def find_trips_reverse (g : Graph) (rule : Option LayoverPred)
    (origin destination : String) (start_date : Int) :
    PyResult (List (List Flight)) :=
  match find_trips g rule origin destination start_date with
  | .err e => .err e
  | .ok trips => findTripsRevLoop g rule origin destination trips []

/-- `flighthandler.FlightTrip` after `__post_init__` ran. -/
structure FlightTrip where
  flights : List Flight
  bags_allowed : Int
  bags_count : Int
  destination : String
  origin : String
  total_price : Rat
  travel_time : Int
deriving DecidableEq, Repr

/-- `FlightTrip(...)` with `__post_init__`: one pass over the legs starting
from the sentinel 999 for bags, 0 for price, the zero delta for time. -/
def mkFlightTrip (flights : List Flight) (bags_count : Int)
    (destination origin : String) : FlightTrip :=
  { flights := flights
    bags_allowed := flights.foldl (fun acc f => min acc f.bags_allowed) 999
    bags_count := bags_count
    destination := destination
    origin := origin
    total_price := flights.foldl (fun acc f => acc + f.get_full_price bags_count) 0
    travel_time := flights.foldl (fun acc f => acc + f.get_travel_time) 0 }

/-- `FlightTrip.__lt__` ordering key: ascending `total_price`.  Python's
`list.sort()` is a stable sort driven by `__lt__`; it is modelled by the
stable `List.insertionSort` under this relation. -/
def tripLE (a b : FlightTrip) : Prop :=
  a.total_price ≤ b.total_price

instance : DecidableRel tripLE :=
  fun a b => inferInstanceAs (Decidable (a.total_price ≤ b.total_price))

instance : IsTotal FlightTrip tripLE :=
  ⟨fun a b => le_total a.total_price b.total_price⟩

instance : IsTrans FlightTrip tripLE :=
  ⟨fun _ _ _ h1 h2 => le_trans h1 h2⟩

/-- `FlightTripDataGenerator.add_trips`: build one `FlightTrip` per flight
sequence in input order, then `self.trips.sort()`. -/
def add_trips (trips : List (List Flight)) (origin destination : String)
    (bags : Int) : List FlightTrip :=
  List.insertionSort tripLE
    (trips.map (fun fs => mkFlightTrip fs bags destination origin))

/-- The airports a path visits, identifying each leg's destination with the
next leg's origin: first origin, then every destination in order. -/
def tripAirports (p : List Flight) : List String :=
  match p with
  | [] => []
  | f :: _ => f.origin :: p.map (fun x => x.destination)

/-- Adjacent legs are connected (`prev.destination = next.origin`). -/
def chainB : List Flight → Bool
  | [] => true
  | [_] => true
  | f1 :: f2 :: rest => (f1.destination == f2.origin) && chainB (f2 :: rest)

/-- Every adjacent pair satisfies the installed layover rule. -/
def layoverB (rule : Option LayoverPred) : List Flight → Bool
  | [] => true
  | [_] => true
  | f1 :: f2 :: rest => is_valid_layover rule f1 f2 && layoverB rule (f2 :: rest)

/-- The flight is stored in the graph (in its origin's bucket). -/
def flightInGraph (g : Graph) (f : Flight) : Prop :=
  f ∈ (graphGet g f.origin).getD []

instance (g : Graph) (f : Flight) : Decidable (flightInGraph g f) :=
  inferInstanceAs (Decidable (f ∈ (graphGet g f.origin).getD []))

/-- The path's first leg departs the query origin at or after the bound. -/
def headOkB (origin : String) (start_date : Int) (p : List Flight) : Bool :=
  match p.head? with
  | some f => (f.origin == origin) && decide (start_date ≤ f.departure)
  | none => false

/-- The path's last leg lands at the query destination. -/
def lastOkB (destination : String) (p : List Flight) : Bool :=
  match p.getLast? with
  | some f => f.destination == destination
  | none => false

/-- No leg before the last one lands at the query destination (the path ends
at the *first* flight that reaches it). -/
def preDestsB (destination : String) (p : List Flight) : Bool :=
  p.dropLast.all (fun f => !(f.destination == destination))

/-- The properties claim C3 lists for a returned path: non-empty, first leg
from the origin at or after the bound, connected, layover-valid on every
hop, no airport visited twice (connection airports identified, the path's
own origin included), ending at the first flight reaching the destination. -/
def soundTripB (rule : Option LayoverPred) (origin destination : String)
    (start_date : Int) (p : List Flight) : Bool :=
  (!p.isEmpty) && headOkB origin start_date p && chainB p &&
  layoverB rule p && decide (tripAirports p).Nodup &&
  lastOkB destination p && preDestsB destination p

/-- Modelled from the spec (section 4.3, "Output"): a simple path the search
is required to return — all the properties of `soundTripB` plus every leg
being drawn from the graph. -/
def isValidTripB (g : Graph) (rule : Option LayoverPred)
    (origin destination : String) (start_date : Int) (p : List Flight) : Bool :=
  soundTripB rule origin destination start_date p &&
  p.all (fun f => decide (flightInGraph g f))

/-- The flight is stored in some bucket of the graph. -/
def graphMem (g : Graph) (f : Flight) : Prop :=
  ∃ kfs ∈ g, f ∈ kfs.snd

/-- Buckets hold exactly the flights departing the bucket's airport
(invariant established by `create_graph`). -/
def WFGraph (g : Graph) : Prop :=
  ∀ kfs ∈ g, ∀ f ∈ kfs.snd, f.origin = kfs.fst

/-- No flight loops back to its own origin airport. -/
def NoSelfLoops (g : Graph) : Prop :=
  ∀ kfs ∈ g, ∀ f ∈ kfs.snd, f.origin ≠ f.destination

instance (g : Graph) : Decidable (WFGraph g) :=
  inferInstanceAs (Decidable (∀ kfs ∈ g, ∀ f ∈ kfs.snd, f.origin = kfs.fst))

instance (g : Graph) : Decidable (NoSelfLoops g) :=
  inferInstanceAs
    (Decidable (∀ kfs ∈ g, ∀ f ∈ kfs.snd, f.origin ≠ f.destination))

/-! ### Concrete instances used by counterexamples and witnesses -/

/-- A flight literal with fixed prices (prices are irrelevant to search). -/
def mkF (no o d : String) (dep arr : Int) : Flight :=
  { flight_no := no, origin := o, destination := d, departure := dep,
    arrival := arr, base_price := 10, bag_price := 1, bags_allowed := 2 }

def fAB1 : Flight := mkF "F1" "A" "B" 0 10
def fBC1 : Flight := mkF "B1" "B" "C" 20 30
def fBC2 : Flight := mkF "B2" "B" "C" 21 31
def fCZ1 : Flight := mkF "C1" "C" "Z" 40 50

/-- Graph with two parallel B→C flights: the branch through the first one
retains airport C in the visited set, which blocks the path through the
second one. -/
def gRetain : Graph := [("A", [fAB1]), ("B", [fBC1, fBC2]), ("C", [fCZ1])]

/-- A CSV record for a single A→B flight (all cells integer-valued). -/
def recAB : FlightRecord :=
  { flight_no := "R1", origin := "A", destination := "B", departure := 0,
    arrival := 10, base_price := ⟨false, 10, none⟩,
    bag_price := ⟨false, 1, none⟩, bags_allowed := ⟨false, 2, none⟩ }

/-- The flight `recAB` constructs. -/
def fABrec : Flight :=
  { flight_no := "R1", origin := "A", destination := "B", departure := 0,
    arrival := 10, base_price := 10, bag_price := 1, bags_allowed := 2 }

def fLoopA : Flight := mkF "L" "A" "A" 0 5
def fACdir : Flight := mkF "AC" "A" "C" 10 20

/-- Graph whose bucket A starts with a self-loop flight A→A. -/
def gLoop : Graph := [("A", [fLoopA, fACdir])]

def fAX : Flight := mkF "AX" "A" "X" 0 60
def fXB : Flight := mkF "XB" "X" "B" 120 180
def fBX : Flight := mkF "BX" "B" "X" 240 300
def fXA : Flight := mkF "XA" "X" "A" 360 420

/-- Round-trip graph where both the outbound and the return half pass
through the intermediate airport X. -/
def gRoundX : Graph := [("A", [fAX]), ("X", [fXB, fXA]), ("B", [fBX])]

def fSeamOut : Flight := mkF "SA" "A" "B" 0 100
def fSeamRet : Flight := mkF "SB" "B" "A" 100 200

/-- Round-trip graph whose return leg departs exactly when the outbound
leg arrives (seam gap of 0 hours). -/
def gSeam : Graph := [("A", [fSeamOut]), ("B", [fSeamRet])]

def fLate1 : Flight := mkF "W1" "A" "B" 100 160
def fEarly2 : Flight := mkF "W2" "B" "C" 50 55

/-- Graph whose second leg departs before the query's start-date bound. -/
def gEarly : Graph := [("A", [fLate1]), ("B", [fEarly2])]

def legAB : Flight := mkF "L1" "A" "B" 0 60
def legBC : Flight := mkF "L2" "B" "C" 120 180

/-- A flight allowing more than 999 bags. -/
def legBig : Flight :=
  { flight_no := "K", origin := "A", destination := "B", departure := 0,
    arrival := 60, base_price := 10, bag_price := 1, bags_allowed := 1000 }

/-- A record whose per-bag price cell is "9.90": it passes `check_float`
but `int("9.90")` raises `ValueError` in `Flight.__post_init__`. -/
def rec990 : FlightRecord :=
  { flight_no := "N1", origin := "A", destination := "B", departure := 0,
    arrival := 10, base_price := ⟨false, 15, none⟩,
    bag_price := ⟨false, 9, some (90, 2)⟩, bags_allowed := ⟨false, 2, none⟩ }

/-! ### General fold lemmas about the aggregation pass -/

theorem foldl_add_hom {M : Type} [AddCommMonoid M] (h : Flight → M) :
    ∀ (l : List Flight) (acc : M),
      l.foldl (fun a f => a + h f) acc = acc + (l.map h).sum
  | [], acc => by simp
  | f :: fs, acc => by
    simp only [List.foldl_cons, List.map_cons, List.sum_cons]
    rw [foldl_add_hom h fs (acc + h f), add_assoc]

theorem foldl_min_split :
    ∀ (fs : List Flight) (a b : Int),
      fs.foldl (fun acc f => min acc f.bags_allowed) (min a b)
        = min a (fs.foldl (fun acc f => min acc f.bags_allowed) b)
  | [], a, b => by simp
  | c :: cs, a, b => by
    simp only [List.foldl_cons]
    rw [min_assoc, foldl_min_split cs a (min b c.bags_allowed)]

theorem foldl_min_mem :
    ∀ (fs : List Flight) (b : Int),
      fs.foldl (fun acc f => min acc f.bags_allowed) b = b ∨
        fs.foldl (fun acc f => min acc f.bags_allowed) b
          ∈ fs.map (fun f => f.bags_allowed)
  | [], _ => Or.inl rfl
  | c :: cs, b => by
    simp only [List.foldl_cons, List.map_cons, List.mem_cons]
    rcases foldl_min_mem cs (min b c.bags_allowed) with h | h
    · rw [h]
      rcases min_cases b c.bags_allowed with ⟨h2, _⟩ | ⟨h2, _⟩
      · exact Or.inl h2
      · exact Or.inr (Or.inl h2)
    · exact Or.inr (Or.inr h)

theorem foldl_min_le_init :
    ∀ (fs : List Flight) (b : Int),
      fs.foldl (fun acc f => min acc f.bags_allowed) b ≤ b
  | [], _ => le_refl _
  | c :: cs, b => by
    simp only [List.foldl_cons]
    exact le_trans (foldl_min_le_init cs (min b c.bags_allowed)) (min_le_left _ _)

theorem foldl_min_le_mem :
    ∀ (fs : List Flight) (b : Int), ∀ f ∈ fs,
      fs.foldl (fun acc f => min acc f.bags_allowed) b ≤ f.bags_allowed
  | c :: cs, b, f, hf => by
    simp only [List.foldl_cons]
    rcases List.mem_cons.mp hf with rfl | hf
    · exact le_trans (foldl_min_le_init cs (min b f.bags_allowed))
        (min_le_right _ _)
    · exact foldl_min_le_mem cs (min b c.bags_allowed) f hf

/-! ### Claim C6: total elapsed time -/

/-- Claim C6, counterexample: for the two-leg itinerary `[legAB, legBC]`
(arrive 60, next departs 120) the computed travel time is the sum of leg
durations (120 minutes), not final arrival minus first departure
(180 minutes) as the claim states — the layover gap is excluded. -/
theorem travel_time_excludes_layovers :
    (mkFlightTrip [legAB, legBC] 0 "C" "A").travel_time = 120 ∧
    legBC.arrival - legAB.departure = 180 ∧ (120 : Int) ≠ 180 := by
  decide

/-- Claim C6 (amended): the derived total elapsed time of an itinerary
equals the sum over its legs of (arrival minus departure), which excludes
the layover gaps between consecutive legs. -/
theorem travel_time_eq_sum_leg_durations (flights : List Flight)
    (bags_count : Int) (destination origin : String) :
    (mkFlightTrip flights bags_count destination origin).travel_time
      = (flights.map (fun f => f.arrival - f.departure)).sum := by
  show flights.foldl (fun acc f => acc + f.get_travel_time) 0 = _
  rw [foldl_add_hom Flight.get_travel_time flights 0, zero_add]
  rfl

/-! ### Claim C8: bags allowed -/

/-- Claim C8, counterexample: a single-leg itinerary whose leg allows 1000
bags gets `bags_allowed = 999` (the fold starts from the sentinel 999),
not the minimum over its legs (1000). -/
theorem bags_allowed_capped_at_999 :
    (mkFlightTrip [legBig] 0 "B" "A").bags_allowed = 999 ∧
    legBig.bags_allowed = 1000 ∧ ((999 : Int) ≠ 1000) := by
  decide

/-- Claim C8 (amended): for a non-empty itinerary the derived bags-allowed
equals the minimum of 999 and the minimum of bags-allowed over its legs
(so it agrees with the claim only while every capacity involved is at most
999). -/
theorem bags_allowed_min_capped (flights : List Flight) (bags_count : Int)
    (destination origin : String) (h : flights ≠ []) :
    ∃ m : Int, m ∈ flights.map (fun f => f.bags_allowed) ∧
      (∀ f ∈ flights, m ≤ f.bags_allowed) ∧
      (mkFlightTrip flights bags_count destination origin).bags_allowed
        = min 999 m := by
  match flights with
  | [] => exact absurd rfl h
  | f0 :: fs =>
    refine ⟨fs.foldl (fun acc f => min acc f.bags_allowed) f0.bags_allowed,
      ?_, ?_, ?_⟩
    · rcases foldl_min_mem fs f0.bags_allowed with h1 | h1
      · rw [h1]; exact List.mem_cons_self _ _
      · exact List.mem_cons_of_mem _ h1
    · intro f hf
      rcases List.mem_cons.mp hf with rfl | hf
      · exact foldl_min_le_init fs f.bags_allowed
      · exact foldl_min_le_mem fs f0.bags_allowed f hf
    · show (f0 :: fs).foldl (fun acc f => min acc f.bags_allowed) 999 = _
      simp only [List.foldl_cons]
      exact foldl_min_split fs 999 f0.bags_allowed

/-- Claim C8, witness: the amended statement evaluated on the one-leg
itinerary over `legBig` (capacity 1000): the minimum is 1000 and the
derived value is `min 999 1000 = 999`. -/
theorem bags_allowed_min_capped_witness :
    ([legBig] ≠ ([] : List Flight)) ∧
    ∃ m : Int, m ∈ [legBig].map (fun f => f.bags_allowed) ∧
      (∀ f ∈ [legBig], m ≤ f.bags_allowed) ∧
      (mkFlightTrip [legBig] 0 "B" "A").bags_allowed = min 999 m :=
  ⟨by decide, bags_allowed_min_capped [legBig] 0 "B" "A" (by decide)⟩

/-! ### Claim C9: fractional per-bag price -/

/-- Claim C9: the record `rec990` (per-bag price cell "9.90") passes the
row validator, yet graph construction fails (`int("9.90")` raises
`ValueError` in `Flight.__post_init__`), contradicting the claim that
construction of validated records raises no error. -/
theorem fractional_bag_price_record_fails :
    validRecord rec990 = true ∧ create_graph [rec990] = none := by
  decide

/-! ### Basic facts about the visited-set and path operations -/

theorem mem_insertStr {a b : String} {l : List String} :
    a ∈ insertStr b l ↔ a = b ∨ a ∈ l := by
  unfold insertStr
  by_cases hb : b ∈ l
  · rw [if_pos hb]
    constructor
    · exact Or.inr
    · rintro (rfl | h)
      · exact hb
      · exact h
  · rw [if_neg hb]
    exact List.mem_cons

theorem mem_removeStr {a b : String} {l : List String} :
    a ∈ removeStr b l ↔ a ∈ l ∧ a ≠ b := by
  unfold removeStr
  rw [List.mem_filter]
  simp

theorem tripAirports_snoc (p : List Flight) (nf : Flight) (h : p ≠ []) :
    tripAirports (p ++ [nf]) = tripAirports p ++ [nf.destination] := by
  cases p with
  | nil => exact absurd rfl h
  | cons f rest => simp [tripAirports, List.map_append]

theorem chainB_snoc :
    ∀ (p : List Flight) (fl nf : Flight), chainB p = true →
      p.getLast? = some fl → fl.destination = nf.origin →
      chainB (p ++ [nf]) = true
  | [], fl, nf, _, hl, _ => by simp at hl
  | [f], fl, nf, _, hl, h2 => by
    simp only [List.getLast?_singleton, Option.some.injEq] at hl
    subst hl
    simp [chainB, h2]
  | f1 :: f2 :: rest, fl, nf, hc, hl, h2 => by
    rw [List.getLast?_cons_cons] at hl
    simp only [chainB, Bool.and_eq_true] at hc
    have ih := chainB_snoc (f2 :: rest) fl nf hc.2 hl h2
    simp only [List.cons_append] at ih ⊢
    simp only [chainB, Bool.and_eq_true]
    exact ⟨hc.1, ih⟩

theorem layoverB_snoc (rule : Option LayoverPred) :
    ∀ (p : List Flight) (fl nf : Flight), layoverB rule p = true →
      p.getLast? = some fl → is_valid_layover rule fl nf = true →
      layoverB rule (p ++ [nf]) = true
  | [], fl, nf, _, hl, _ => by simp at hl
  | [f], fl, nf, _, hl, h2 => by
    simp only [List.getLast?_singleton, Option.some.injEq] at hl
    subst hl
    simp [layoverB, h2]
  | f1 :: f2 :: rest, fl, nf, hc, hl, h2 => by
    rw [List.getLast?_cons_cons] at hl
    simp only [layoverB, Bool.and_eq_true] at hc
    have ih := layoverB_snoc rule (f2 :: rest) fl nf hc.2 hl h2
    simp only [List.cons_append] at ih ⊢
    simp only [layoverB, Bool.and_eq_true]
    exact ⟨hc.1, ih⟩

theorem headOkB_snoc (origin : String) (start_date : Int) (p : List Flight)
    (nf : Flight) (h : p ≠ []) :
    headOkB origin start_date (p ++ [nf]) = headOkB origin start_date p := by
  cases p with
  | nil => exact absurd rfl h
  | cons f rest => simp [headOkB, List.cons_append]

theorem graphGet_keyed {g : Graph} {k : String} {fs : List Flight}
    (h : graphGet g k = some fs) :
    ∃ kfs ∈ g, kfs.fst = k ∧ kfs.snd = fs := by
  unfold graphGet at h
  cases hf : g.find? (fun p => p.fst == k) with
  | none => rw [hf] at h; simp at h
  | some kfs =>
    rw [hf] at h
    simp only [Option.map_some', Option.some.injEq] at h
    exact ⟨kfs, List.mem_of_find?_eq_some hf,
      beq_iff_eq.mp (by simpa using List.find?_some hf), h⟩

theorem graphGet_wf {g : Graph} {k : String} {fs : List Flight}
    (hwf : WFGraph g) (h : graphGet g k = some fs) :
    ∀ f ∈ fs, f.origin = k := by
  rcases graphGet_keyed h with ⟨kfs, hmem, hkey, hsnd⟩
  intro f hf
  rw [hwf kfs hmem f (hsnd ▸ hf), hkey]

theorem graphGet_noself {g : Graph} {k : String} {fs : List Flight}
    (hns : NoSelfLoops g) (h : graphGet g k = some fs) :
    ∀ f ∈ fs, f.origin ≠ f.destination := by
  rcases graphGet_keyed h with ⟨kfs, hmem, _, hsnd⟩
  intro f hf
  exact hns kfs hmem f (hsnd ▸ hf)

theorem flightInGraph_bucket {g : Graph} {f : Flight}
    (h : flightInGraph g f) :
    ∃ fs, graphGet g f.origin = some fs ∧ f ∈ fs := by
  unfold flightInGraph at h
  cases hf : graphGet g f.origin with
  | none => rw [hf] at h; simp at h
  | some fs => rw [hf] at h; exact ⟨fs, rfl, h⟩

/-! ### Invariants of the search loop -/

theorem foldl_exploreStep_err (rule : Option LayoverPred) (flight : Flight)
    (recur : Flight → List String → List (List Flight) →
      PyResult (List String × List (List Flight))) (e : PyErr) :
    ∀ l : List Flight,
      List.foldl (exploreStep rule flight recur) (.err e) l = .err e
  | [] => rfl
  | nf :: rest => by
    rw [List.foldl_cons]
    rw [show exploreStep rule flight recur (.err e) nf = .err e from rfl]
    exact foldl_exploreStep_err rule flight recur e rest

theorem foldl_exploreStep_mono (rule : Option LayoverPred) (flight : Flight)
    (recur : Flight → List String → List (List Flight) →
      PyResult (List String × List (List Flight)))
    (hrec : ∀ nf v t v2 t2, recur nf v t = .ok (v2, t2) → ∀ x ∈ t, x ∈ t2) :
    ∀ (nexts : List Flight) (v : List String) (t : List (List Flight)) (v2 t2),
      List.foldl (exploreStep rule flight recur) (.ok (v, t)) nexts
          = .ok (v2, t2) →
      ∀ x ∈ t, x ∈ t2
  | [], v, t, v2, t2, h, x, hx => by
    simp only [List.foldl_nil, PyResult.ok.injEq, Prod.mk.injEq] at h
    exact h.2 ▸ hx
  | nf :: rest, v, t, v2, t2, h, x, hx => by
    rw [List.foldl_cons] at h
    by_cases hg : nf.destination ∉ v ∧ is_valid_layover rule flight nf = true
    · rw [show exploreStep rule flight recur (.ok (v, t)) nf
          = if nf.destination ∉ v ∧ is_valid_layover rule flight nf = true then
              recur nf v t else .ok (v, t) from rfl, if_pos hg] at h
      cases hr : recur nf v t with
      | err e =>
        rw [hr, foldl_exploreStep_err] at h
        exact PyResult.noConfusion h
      | ok vt =>
        rw [hr] at h
        exact foldl_exploreStep_mono rule flight recur hrec rest vt.1 vt.2 v2 t2
          h x (hrec nf v t vt.1 vt.2 (by rw [hr]) x hx)
    · rw [show exploreStep rule flight recur (.ok (v, t)) nf
          = if nf.destination ∉ v ∧ is_valid_layover rule flight nf = true then
              recur nf v t else .ok (v, t) from rfl, if_neg hg] at h
      exact foldl_exploreStep_mono rule flight recur hrec rest v t v2 t2 h x hx

theorem explore_mono (g : Graph) (rule : Option LayoverPred) (dest : String) :
    ∀ (fuel : Nat) (flight : Flight) (visited : List String)
      (current : List Flight) (trips : List (List Flight)) (v2 t2),
      explore g rule dest fuel flight visited current trips = .ok (v2, t2) →
      ∀ x ∈ trips, x ∈ t2
  | 0, flight, visited, current, trips, v2, t2, h, x, hx =>
    PyResult.noConfusion h
  | fuel + 1, flight, visited, current, trips, v2, t2, h, x, hx => by
    simp only [explore] at h
    by_cases hd : flight.destination = dest
    · rw [if_pos hd] at h
      simp only [PyResult.ok.injEq, Prod.mk.injEq] at h
      rw [← h.2]
      exact List.mem_append_left _ hx
    · rw [if_neg hd] at h
      cases hgg : graphGet g flight.destination with
      | none => rw [hgg] at h; exact PyResult.noConfusion h
      | some nexts =>
        rw [hgg] at h
        exact foldl_exploreStep_mono rule flight _
          (fun nf v t v2' t2' hr x' hx' =>
            explore_mono g rule dest fuel nf v (current ++ [flight]) t v2' t2'
              hr x' hx')
          nexts _ trips v2 t2 h x hx

theorem foldl_exploreStep_vis (g : Graph) (rule : Option LayoverPred)
    (dest : String) (flight : Flight)
    (recur : Flight → List String → List (List Flight) →
      PyResult (List String × List (List Flight)))
    (hrecA : ∀ nf v t v2 t2, recur nf v t = .ok (v2, t2) →
      ∀ a ∈ v, a ≠ dest → a ∈ v2)
    (hrecB : ∀ nf v t v2 t2, nf.destination ≠ dest →
      recur nf v t = .ok (v2, t2) → dest ∈ v → dest ∈ v2)
    (hrecC : ∀ nf v t v2 t2, nf.origin ≠ dest →
      recur nf v t = .ok (v2, t2) → dest ∉ v → dest ∉ v2) :
    ∀ (nexts : List Flight) (v : List String) (t : List (List Flight)) (v2 t2),
      (∀ nf ∈ nexts, nf.origin ≠ dest) →
      List.foldl (exploreStep rule flight recur) (.ok (v, t)) nexts
          = .ok (v2, t2) →
      (∀ a ∈ v, a ≠ dest → a ∈ v2) ∧ (dest ∈ v → dest ∈ v2) ∧
        (dest ∉ v → dest ∉ v2)
  | [], v, t, v2, t2, _, h => by
    simp only [List.foldl_nil, PyResult.ok.injEq, Prod.mk.injEq] at h
    rw [← h.1]
    exact ⟨fun a ha _ => ha, id, id⟩
  | nf :: rest, v, t, v2, t2, horig, h => by
    rw [List.foldl_cons] at h
    by_cases hg : nf.destination ∉ v ∧ is_valid_layover rule flight nf = true
    · rw [show exploreStep rule flight recur (.ok (v, t)) nf
          = if nf.destination ∉ v ∧ is_valid_layover rule flight nf = true then
              recur nf v t else .ok (v, t) from rfl, if_pos hg] at h
      cases hr : recur nf v t with
      | err e =>
        rw [hr, foldl_exploreStep_err] at h
        exact PyResult.noConfusion h
      | ok vt =>
        rw [hr] at h
        have ih := foldl_exploreStep_vis g rule dest flight recur hrecA hrecB
          hrecC rest vt.1 vt.2 v2 t2
          (fun x hx => horig x (List.mem_cons_of_mem _ hx)) h
        refine ⟨?_, ?_, ?_⟩
        · intro a ha hne
          exact ih.1 a (hrecA nf v t vt.1 vt.2 (by rw [hr]) a ha hne) hne
        · intro hdv
          have hnd : nf.destination ≠ dest := fun he => hg.1 (he ▸ hdv)
          exact ih.2.1 (hrecB nf v t vt.1 vt.2 hnd (by rw [hr]) hdv)
        · intro hdv
          exact ih.2.2 (hrecC nf v t vt.1 vt.2
            (horig nf (List.mem_cons_self _ _)) (by rw [hr]) hdv)
    · rw [show exploreStep rule flight recur (.ok (v, t)) nf
          = if nf.destination ∉ v ∧ is_valid_layover rule flight nf = true then
              recur nf v t else .ok (v, t) from rfl, if_neg hg] at h
      exact foldl_exploreStep_vis g rule dest flight recur hrecA hrecB hrecC
        rest v t v2 t2 (fun x hx => horig x (List.mem_cons_of_mem _ hx)) h

theorem explore_vis (g : Graph) (rule : Option LayoverPred) (dest : String)
    (hwf : WFGraph g) :
    ∀ (fuel : Nat) (flight : Flight) (visited : List String)
      (current : List Flight) (trips : List (List Flight)) (v2 t2),
      explore g rule dest fuel flight visited current trips = .ok (v2, t2) →
      (∀ a ∈ visited, a ≠ dest → a ∈ v2) ∧
        (flight.destination ≠ dest → dest ∈ visited → dest ∈ v2) ∧
        (flight.origin ≠ dest → dest ∉ visited → dest ∉ v2)
  | 0, flight, visited, current, trips, v2, t2, h =>
    PyResult.noConfusion h
  | fuel + 1, flight, visited, current, trips, v2, t2, h => by
    simp only [explore] at h
    by_cases hd : flight.destination = dest
    · rw [if_pos hd] at h
      simp only [PyResult.ok.injEq, Prod.mk.injEq] at h
      refine ⟨?_, ?_, ?_⟩
      · intro a ha hne
        rw [← h.1, hd, mem_removeStr]
        exact ⟨mem_insertStr.mpr (Or.inr (mem_insertStr.mpr (Or.inr ha))), hne⟩
      · intro hnd
        exact absurd hd hnd
      · intro _ _
        rw [← h.1, hd]
        intro hc
        exact (mem_removeStr.mp hc).2 rfl
    · rw [if_neg hd] at h
      cases hgg : graphGet g flight.destination with
      | none => rw [hgg] at h; exact PyResult.noConfusion h
      | some nexts =>
        rw [hgg] at h
        have horig : ∀ nf ∈ nexts, nf.origin ≠ dest := by
          intro nf hnf
          rw [graphGet_wf hwf hgg nf hnf]
          exact hd
        have ih := foldl_exploreStep_vis g rule dest flight _
          (fun nf v t v2' t2' hr => (explore_vis g rule dest hwf fuel nf v
            (current ++ [flight]) t v2' t2' hr).1)
          (fun nf v t v2' t2' hnd hr => (explore_vis g rule dest hwf fuel nf v
            (current ++ [flight]) t v2' t2' hr).2.1 hnd)
          (fun nf v t v2' t2' hno hr => (explore_vis g rule dest hwf fuel nf v
            (current ++ [flight]) t v2' t2' hr).2.2 hno)
          nexts _ trips v2 t2 horig h
        refine ⟨?_, ?_, ?_⟩
        · intro a ha hne
          exact ih.1 a
            (mem_insertStr.mpr (Or.inr (mem_insertStr.mpr (Or.inr ha)))) hne
        · intro _ hdv
          exact ih.2.1
            (mem_insertStr.mpr (Or.inr (mem_insertStr.mpr (Or.inr hdv))))
        · intro hno hdv
          refine ih.2.2 ?_
          intro hc
          rcases mem_insertStr.mp hc with he | hc2
          · exact hd he.symm
          · rcases mem_insertStr.mp hc2 with he | hc3
            · exact hno he.symm
            · exact hdv hc3

/-! ### Soundness of the forward search -/

theorem soundTripB_intro (rule : Option LayoverPred)
    (origin destination : String) (start_date : Int) (p : List Flight)
    (h1 : p ≠ []) (h2 : headOkB origin start_date p = true)
    (h3 : chainB p = true) (h4 : layoverB rule p = true)
    (h5 : (tripAirports p).Nodup) (h6 : lastOkB destination p = true)
    (h7 : preDestsB destination p = true) :
    soundTripB rule origin destination start_date p = true := by
  simp only [soundTripB, Bool.and_eq_true, Bool.not_eq_true', decide_eq_true_eq]
  refine ⟨⟨⟨⟨⟨⟨?_, h2⟩, h3⟩, h4⟩, h5⟩, h6⟩, h7⟩
  rw [List.isEmpty_eq_false]
  exact h1

theorem foldl_exploreStep_sound (rule : Option LayoverPred)
    (dest origin : String) (start : Int) (flight : Flight)
    (current1 : List Flight)
    (recur : Flight → List String → List (List Flight) →
      PyResult (List String × List (List Flight)))
    (hrecA : ∀ nf v t v2 t2, recur nf v t = .ok (v2, t2) →
      ∀ a ∈ v, a ≠ dest → a ∈ v2)
    (hrecB : ∀ nf v t v2 t2, nf.destination ≠ dest →
      recur nf v t = .ok (v2, t2) → dest ∈ v → dest ∈ v2)
    (hrecS : ∀ nf v t v2 t2, recur nf v t = .ok (v2, t2) →
      chainB (current1 ++ [nf]) = true →
      layoverB rule (current1 ++ [nf]) = true →
      headOkB origin start (current1 ++ [nf]) = true →
      (tripAirports (current1 ++ [nf])).Nodup →
      (∀ a ∈ tripAirports (current1 ++ [nf]),
        a = nf.destination ∨ a = nf.origin ∨ a ∈ v) →
      (∀ f ∈ current1, f.destination ≠ dest) →
      ∀ p ∈ t2, p ∈ t ∨ soundTripB rule origin dest start p = true)
    (hlastc : current1.getLast? = some flight) (hne : current1 ≠ [])
    (hchain : chainB current1 = true) (hlay : layoverB rule current1 = true)
    (hhead : headOkB origin start current1 = true)
    (hnodup : (tripAirports current1).Nodup)
    (halldest : ∀ f ∈ current1, f.destination ≠ dest) :
    ∀ (nexts : List Flight) (v : List String) (t : List (List Flight)) (v2 t2),
      (∀ nf ∈ nexts, nf.origin = flight.destination) →
      (∀ a ∈ tripAirports current1, a ∈ v) →
      List.foldl (exploreStep rule flight recur) (.ok (v, t)) nexts
          = .ok (v2, t2) →
      ∀ p ∈ t2, p ∈ t ∨ soundTripB rule origin dest start p = true
  | [], v, t, v2, t2, _, _, h, p, hp => by
    simp only [List.foldl_nil, PyResult.ok.injEq, Prod.mk.injEq] at h
    exact Or.inl (h.2 ▸ hp)
  | nf :: rest, v, t, v2, t2, hnexts, hvis, h, p, hp => by
    rw [List.foldl_cons] at h
    by_cases hg : nf.destination ∉ v ∧ is_valid_layover rule flight nf = true
    · rw [show exploreStep rule flight recur (.ok (v, t)) nf
          = if nf.destination ∉ v ∧ is_valid_layover rule flight nf = true then
              recur nf v t else .ok (v, t) from rfl, if_pos hg] at h
      cases hr : recur nf v t with
      | err e =>
        rw [hr, foldl_exploreStep_err] at h
        exact PyResult.noConfusion h
      | ok vt =>
        rw [hr] at h
        have hnin : nf.destination ∉ tripAirports current1 :=
          fun hc => hg.1 (hvis _ hc)
        have hS := hrecS nf v t vt.1 vt.2 (by rw [hr])
          (chainB_snoc current1 flight nf hchain hlastc
            (hnexts nf (List.mem_cons_self _ _)).symm)
          (layoverB_snoc rule current1 flight nf hlay hlastc hg.2)
          (by rw [headOkB_snoc origin start current1 nf hne]; exact hhead)
          (by
            rw [tripAirports_snoc current1 nf hne]
            rw [List.nodup_append]
            refine ⟨hnodup, List.nodup_singleton _, ?_⟩
            intro a ha hb
            rw [List.mem_singleton] at hb
            exact hnin (hb ▸ ha))
          (by
            intro a ha
            rw [tripAirports_snoc current1 nf hne, List.mem_append] at ha
            rcases ha with ha | ha
            · exact Or.inr (Or.inr (hvis a ha))
            · exact Or.inl (List.mem_singleton.mp ha))
          halldest
        have hvis2 : ∀ a ∈ tripAirports current1, a ∈ vt.1 := by
          intro a ha
          by_cases hadest : a = dest
          · subst hadest
            have hnd : nf.destination ≠ a := fun he => hg.1 (he ▸ hvis a ha)
            exact hrecB nf v t vt.1 vt.2 hnd (by rw [hr]) (hvis a ha)
          · exact hrecA nf v t vt.1 vt.2 (by rw [hr]) a (hvis a ha) hadest
        rcases foldl_exploreStep_sound rule dest origin start flight current1
          recur hrecA hrecB hrecS hlastc hne hchain hlay hhead hnodup halldest
          rest vt.1 vt.2 v2 t2
          (fun x hx => hnexts x (List.mem_cons_of_mem _ hx)) hvis2 h p hp with
          hin | hsound
        · rcases hS p hin with hin2 | hsound2
          · exact Or.inl hin2
          · exact Or.inr hsound2
        · exact Or.inr hsound
    · rw [show exploreStep rule flight recur (.ok (v, t)) nf
          = if nf.destination ∉ v ∧ is_valid_layover rule flight nf = true then
              recur nf v t else .ok (v, t) from rfl, if_neg hg] at h
      exact foldl_exploreStep_sound rule dest origin start flight current1
        recur hrecA hrecB hrecS hlastc hne hchain hlay hhead hnodup halldest
        rest v t v2 t2 (fun x hx => hnexts x (List.mem_cons_of_mem _ hx))
        hvis h p hp

theorem explore_sound (g : Graph) (rule : Option LayoverPred)
    (dest origin : String) (start : Int) (hwf : WFGraph g) :
    ∀ (fuel : Nat) (flight : Flight) (visited : List String)
      (current : List Flight) (trips : List (List Flight)) (v2 t2),
      explore g rule dest fuel flight visited current trips = .ok (v2, t2) →
      chainB (current ++ [flight]) = true →
      layoverB rule (current ++ [flight]) = true →
      headOkB origin start (current ++ [flight]) = true →
      (tripAirports (current ++ [flight])).Nodup →
      (∀ a ∈ tripAirports (current ++ [flight]),
        a = flight.destination ∨ a = flight.origin ∨ a ∈ visited) →
      (∀ f ∈ current, f.destination ≠ dest) →
      ∀ p ∈ t2, p ∈ trips ∨ soundTripB rule origin dest start p = true
  | 0, flight, visited, current, trips, v2, t2, h =>
    fun _ _ _ _ _ _ _ _ => PyResult.noConfusion h
  | fuel + 1, flight, visited, current, trips, v2, t2, h => by
    intro hchain hlay hhead hnodup hvis halldest p hp
    simp only [explore] at h
    by_cases hd : flight.destination = dest
    · rw [if_pos hd] at h
      simp only [PyResult.ok.injEq, Prod.mk.injEq] at h
      rw [← h.2, List.mem_append] at hp
      rcases hp with hp | hp
      · exact Or.inl hp
      · rw [List.mem_singleton] at hp
        subst hp
        refine Or.inr (soundTripB_intro rule origin dest start _
          (by simp) hhead hchain hlay hnodup ?_ ?_)
        · simp [lastOkB, List.getLast?_concat, hd]
        · simp only [preDestsB, List.dropLast_concat, List.all_eq_true,
            Bool.not_eq_true']
          intro f hf
          exact beq_eq_false_iff_ne.mpr (halldest f hf)
    · rw [if_neg hd] at h
      cases hgg : graphGet g flight.destination with
      | none => rw [hgg] at h; exact PyResult.noConfusion h
      | some nexts =>
        rw [hgg] at h
        refine foldl_exploreStep_sound rule dest origin start flight
          (current ++ [flight]) _
          (fun nf v t v2' t2' hr => (explore_vis g rule dest hwf fuel nf v
            (current ++ [flight]) t v2' t2' hr).1)
          (fun nf v t v2' t2' hnd hr => (explore_vis g rule dest hwf fuel nf v
            (current ++ [flight]) t v2' t2' hr).2.1 hnd)
          (fun nf v t v2' t2' hr hc hl hh hn hv hall =>
            explore_sound g rule dest origin start hwf fuel nf v
              (current ++ [flight]) t v2' t2' hr hc hl hh hn hv hall)
          (List.getLast?_concat current) (by simp) hchain hlay hhead hnodup
          (by
            intro f hf
            rcases List.mem_append.mp hf with hf | hf
            · exact halldest f hf
            · rw [List.mem_singleton] at hf
              exact hf ▸ hd)
          nexts _ trips v2 t2 (graphGet_wf hwf hgg) ?_ h p hp
        intro a ha
        rcases hvis a ha with ha2 | ha2 | ha2
        · exact mem_insertStr.mpr (Or.inl ha2)
        · exact mem_insertStr.mpr (Or.inr (mem_insertStr.mpr (Or.inl ha2)))
        · exact mem_insertStr.mpr (Or.inr (mem_insertStr.mpr (Or.inr ha2)))

theorem findTripsLoop_sound (g : Graph) (rule : Option LayoverPred)
    (dest origin : String) (start : Int) (hwf : WFGraph g) :
    ∀ (flights : List Flight) (trips out : List (List Flight)),
      (∀ f ∈ flights, f.origin = origin ∧ f.origin ≠ f.destination) →
      findTripsLoop g rule dest start flights trips = .ok out →
      ∀ p ∈ out, p ∈ trips ∨ soundTripB rule origin dest start p = true
  | [], trips, out, _, h, p, hp => by
    simp only [findTripsLoop, PyResult.ok.injEq] at h
    exact Or.inl (h ▸ hp)
  | f :: rest, trips, out, hfl, h, p, hp => by
    simp only [findTripsLoop] at h
    by_cases hs : start ≤ f.departure
    · rw [if_pos hs] at h
      cases hx : explore g rule dest (graphFuel g) f [] [] trips with
      | err e => rw [hx] at h; exact PyResult.noConfusion h
      | ok vt =>
        rw [hx] at h
        have hsound := explore_sound g rule dest origin start hwf
          (graphFuel g) f [] [] trips vt.1 vt.2 (by rw [hx])
          (by simp [chainB]) (by simp [layoverB])
          (by
            simp only [List.nil_append, headOkB, List.head?_cons,
              Bool.and_eq_true, beq_iff_eq, decide_eq_true_eq]
            exact ⟨(hfl f (List.mem_cons_self _ _)).1, hs⟩)
          (by
            simp only [List.nil_append, tripAirports, List.map_cons,
              List.map_nil]
            simp [(hfl f (List.mem_cons_self _ _)).2])
          (by
            intro a ha
            simp only [List.nil_append, tripAirports, List.map_cons,
              List.map_nil, List.mem_cons, List.mem_singleton] at ha
            rcases ha with rfl | ha
            · exact Or.inr (Or.inl rfl)
            · rcases ha with rfl | ha
              · exact Or.inl rfl
              · exact absurd ha (List.not_mem_nil a))
          (fun f2 hf2 => absurd hf2 (List.not_mem_nil f2))
        rcases findTripsLoop_sound g rule dest origin start hwf rest vt.2 out
          (fun x hx2 => hfl x (List.mem_cons_of_mem _ hx2)) h p hp with
          hin | hs2
        · rcases hsound p hin with hin2 | hs3
          · exact Or.inl hin2
          · exact Or.inr hs3
        · exact Or.inr hs2
    · rw [if_neg hs] at h
      exact findTripsLoop_sound g rule dest origin start hwf rest trips out
        (fun x hx2 => hfl x (List.mem_cons_of_mem _ hx2)) h p hp

/-- Claim C3 (amended): provided no flight of the graph loops back to its
own origin airport, every path of a successful `find_trips` run is
non-empty, starts at the query origin with first departure at or after the
bound, is connected and layover-valid on every hop, visits no airport
twice, and ends at the first flight reaching the destination; the
start-date bound is checked only on the first leg. -/
theorem find_trips_sound (g : Graph) (rule : Option LayoverPred)
    (origin dest : String) (start : Int) (ts : List (List Flight))
    (hwf : WFGraph g) (hns : NoSelfLoops g)
    (h : find_trips g rule origin dest start = .ok ts) :
    ∀ p ∈ ts, soundTripB rule origin dest start p = true := by
  unfold find_trips at h
  have hfl : ∀ f ∈ (graphGet g origin).getD [], f.origin = origin ∧
      f.origin ≠ f.destination := by
    cases hgg : graphGet g origin with
    | none => simp
    | some fs =>
      simp only [Option.getD_some]
      exact fun f hf =>
        ⟨graphGet_wf hwf hgg f hf, graphGet_noself hns hgg f hf⟩
  intro p hp
  rcases findTripsLoop_sound g rule dest origin start hwf _ [] ts hfl h p hp
    with hin | hsound
  · exact absurd hin (List.not_mem_nil p)
  · exact hsound

/-- Claim C3, counterexample: the graph `gLoop` holds a self-loop flight
A→A; `find_trips` returns the path `[A→A, A→C]`, in which airport A is the
origin of two distinct legs (and tripAirports has a repeat), so the
claimed no-airport-twice property fails as stated. -/
theorem self_loop_path_repeats_airport :
    find_trips gLoop none "A" "C" 0 = .ok [[fLoopA, fACdir], [fACdir]] ∧
    soundTripB none "A" "C" 0 [fLoopA, fACdir] = false ∧
    ¬ (tripAirports [fLoopA, fACdir]).Nodup := by
  decide

/-- Claim C3, witness: the amended soundness applied to `gEarly`, whose
returned two-leg path has a second leg departing at minute 50, before the
start bound 100 — showing the bound constrains only the first leg. -/
theorem find_trips_sound_witness :
    (WFGraph gEarly ∧ NoSelfLoops gEarly ∧
      find_trips gEarly none "A" "C" 100 = .ok [[fLate1, fEarly2]] ∧
      fEarly2.departure < 100) ∧
    (∀ p ∈ [[fLate1, fEarly2]], soundTripB none "A" "C" 100 p = true) :=
  ⟨⟨by decide, by decide, by decide, by decide⟩,
    find_trips_sound gEarly none "A" "C" 100 [[fLate1, fEarly2]]
      (by decide) (by decide) (by decide)⟩

/-! ### Completeness of the forward search for short paths -/

theorem soundTripB_elim {rule : Option LayoverPred}
    {origin destination : String} {start_date : Int} {p : List Flight}
    (h : soundTripB rule origin destination start_date p = true) :
    p ≠ [] ∧ headOkB origin start_date p = true ∧ chainB p = true ∧
    layoverB rule p = true ∧ (tripAirports p).Nodup ∧
    lastOkB destination p = true ∧ preDestsB destination p = true := by
  simp only [soundTripB, Bool.and_eq_true, decide_eq_true_eq,
    Bool.not_eq_true'] at h
  obtain ⟨⟨⟨⟨⟨⟨h1, h2⟩, h3⟩, h4⟩, h5⟩, h6⟩, h7⟩ := h
  rw [List.isEmpty_eq_false] at h1
  exact ⟨h1, h2, h3, h4, h5, h6, h7⟩

theorem explore_hit (g : Graph) (rule : Option LayoverPred) (dest : String)
    (f2 : Flight) (hf2d : f2.destination = dest) :
    ∀ (fuel : Nat) (v : List String) (current1 : List Flight)
      (t : List (List Flight)) (v2 t2),
      explore g rule dest fuel f2 v current1 t = .ok (v2, t2) →
      (current1 ++ [f2]) ∈ t2
  | 0, v, current1, t, v2, t2, h => PyResult.noConfusion h
  | fuel + 1, v, current1, t, v2, t2, h => by
    simp only [explore] at h
    rw [if_pos hf2d] at h
    simp only [PyResult.ok.injEq, Prod.mk.injEq] at h
    rw [← h.2]
    exact List.mem_append_right _ (List.mem_singleton.mpr rfl)

theorem foldl_exploreStep_complete (rule : Option LayoverPred) (dest : String)
    (flight f2 : Flight) (current1 : List Flight)
    (recur : Flight → List String → List (List Flight) →
      PyResult (List String × List (List Flight)))
    (hrecMono : ∀ nf v t v2 t2, recur nf v t = .ok (v2, t2) → ∀ x ∈ t, x ∈ t2)
    (hrecC : ∀ nf v t v2 t2, nf.origin ≠ dest →
      recur nf v t = .ok (v2, t2) → dest ∉ v → dest ∉ v2)
    (hrecHit : ∀ v t v2 t2, recur f2 v t = .ok (v2, t2) →
      (current1 ++ [f2]) ∈ t2)
    (hlay : is_valid_layover rule flight f2 = true)
    (hf2d : f2.destination = dest) :
    ∀ (nexts : List Flight) (v : List String) (t : List (List Flight)) (v2 t2),
      f2 ∈ nexts → (∀ nf ∈ nexts, nf.origin ≠ dest) → dest ∉ v →
      List.foldl (exploreStep rule flight recur) (.ok (v, t)) nexts
          = .ok (v2, t2) →
      (current1 ++ [f2]) ∈ t2
  | [], v, t, v2, t2, hmem, _, _, _ => absurd hmem (List.not_mem_nil f2)
  | nf :: rest, v, t, v2, t2, hmem, horig, hdv, h => by
    rw [List.foldl_cons] at h
    rcases List.mem_cons.mp hmem with rfl | hmem2
    · have hg : f2.destination ∉ v ∧ is_valid_layover rule flight f2 = true :=
        ⟨by rw [hf2d]; exact hdv, hlay⟩
      rw [show exploreStep rule flight recur (.ok (v, t)) f2
          = if f2.destination ∉ v ∧ is_valid_layover rule flight f2 = true then
              recur f2 v t else .ok (v, t) from rfl, if_pos hg] at h
      cases hr : recur f2 v t with
      | err e =>
        rw [hr, foldl_exploreStep_err] at h
        exact PyResult.noConfusion h
      | ok vt =>
        rw [hr] at h
        exact foldl_exploreStep_mono rule flight recur hrecMono rest vt.1 vt.2
          v2 t2 h _ (hrecHit v t vt.1 vt.2 (by rw [hr]))
    · by_cases hg : nf.destination ∉ v ∧ is_valid_layover rule flight nf = true
      · rw [show exploreStep rule flight recur (.ok (v, t)) nf
            = if nf.destination ∉ v ∧ is_valid_layover rule flight nf = true
              then recur nf v t else .ok (v, t) from rfl, if_pos hg] at h
        cases hr : recur nf v t with
        | err e =>
          rw [hr, foldl_exploreStep_err] at h
          exact PyResult.noConfusion h
        | ok vt =>
          rw [hr] at h
          exact foldl_exploreStep_complete rule dest flight f2 current1 recur
            hrecMono hrecC hrecHit hlay hf2d rest vt.1 vt.2 v2 t2 hmem2
            (fun x hx => horig x (List.mem_cons_of_mem _ hx))
            (hrecC nf v t vt.1 vt.2 (horig nf (List.mem_cons_self _ _))
              (by rw [hr]) hdv) h
      · rw [show exploreStep rule flight recur (.ok (v, t)) nf
            = if nf.destination ∉ v ∧ is_valid_layover rule flight nf = true
              then recur nf v t else .ok (v, t) from rfl, if_neg hg] at h
        exact foldl_exploreStep_complete rule dest flight f2 current1 recur
          hrecMono hrecC hrecHit hlay hf2d rest v t v2 t2 hmem2
          (fun x hx => horig x (List.mem_cons_of_mem _ hx)) hdv h

theorem explore_two (g : Graph) (rule : Option LayoverPred) (dest : String)
    (hwf : WFGraph g) (f1 f2 : Flight) (h12 : f1.destination = f2.origin)
    (hf2g : flightInGraph g f2) (hlay : is_valid_layover rule f1 f2 = true)
    (hf2d : f2.destination = dest) (hf1d : f1.destination ≠ dest) :
    ∀ (fuel : Nat) (visited : List String) (current : List Flight)
      (trips : List (List Flight)) (v2 t2),
      dest ∉ visited → dest ≠ f1.origin →
      explore g rule dest fuel f1 visited current trips = .ok (v2, t2) →
      (current ++ [f1] ++ [f2]) ∈ t2
  | 0, visited, current, trips, v2, t2, _, _, h => PyResult.noConfusion h
  | fuel + 1, visited, current, trips, v2, t2, hdv, hdo, h => by
    simp only [explore] at h
    rw [if_neg hf1d] at h
    rcases flightInGraph_bucket hf2g with ⟨fs, hget, hf2fs⟩
    rw [← h12] at hget
    rw [hget] at h
    refine foldl_exploreStep_complete rule dest f1 f2 (current ++ [f1]) _
      (fun nf v t v2' t2' hr x hx =>
        explore_mono g rule dest fuel nf v (current ++ [f1]) t v2' t2' hr x hx)
      (fun nf v t v2' t2' hno hr =>
        (explore_vis g rule dest hwf fuel nf v (current ++ [f1]) t v2' t2'
          hr).2.2 hno)
      (fun v t v2' t2' hr =>
        explore_hit g rule dest f2 hf2d fuel v (current ++ [f1]) t v2' t2' hr)
      hlay hf2d fs _ trips v2 t2 hf2fs ?_ ?_ h
    · intro nf hnf
      rw [graphGet_wf hwf hget nf hnf]
      exact hf1d
    · intro hc
      rcases mem_insertStr.mp hc with he | hc2
      · exact hf1d he.symm
      · rcases mem_insertStr.mp hc2 with he | hc3
        · exact hdo he
        · exact hdv hc3

theorem findTripsLoop_mono (g : Graph) (rule : Option LayoverPred)
    (dest : String) (start : Int) :
    ∀ (flights : List Flight) (trips out : List (List Flight)),
      findTripsLoop g rule dest start flights trips = .ok out →
      ∀ x ∈ trips, x ∈ out
  | [], trips, out, h, x, hx => by
    simp only [findTripsLoop, PyResult.ok.injEq] at h
    exact h ▸ hx
  | f :: rest, trips, out, h, x, hx => by
    simp only [findTripsLoop] at h
    by_cases hs : start ≤ f.departure
    · rw [if_pos hs] at h
      cases he : explore g rule dest (graphFuel g) f [] [] trips with
      | err e => rw [he] at h; exact PyResult.noConfusion h
      | ok vt =>
        rw [he] at h
        exact findTripsLoop_mono g rule dest start rest vt.2 out h x
          (explore_mono g rule dest (graphFuel g) f [] [] trips vt.1 vt.2
            (by rw [he]) x hx)
    · rw [if_neg hs] at h
      exact findTripsLoop_mono g rule dest start rest trips out h x hx

theorem findTripsLoop_reach (g : Graph) (rule : Option LayoverPred)
    (dest : String) (start : Int) (f1 : Flight) (p : List Flight)
    (hdep : start ≤ f1.departure)
    (hexp : ∀ (trips : List (List Flight)) (v2 t2),
      explore g rule dest (graphFuel g) f1 [] [] trips = .ok (v2, t2) →
      p ∈ t2) :
    ∀ (flights : List Flight) (trips out : List (List Flight)),
      f1 ∈ flights →
      findTripsLoop g rule dest start flights trips = .ok out → p ∈ out
  | [], trips, out, hmem, _ => absurd hmem (List.not_mem_nil f1)
  | f :: rest, trips, out, hmem, h => by
    simp only [findTripsLoop] at h
    rcases List.mem_cons.mp hmem with rfl | hmem2
    · rw [if_pos hdep] at h
      cases he : explore g rule dest (graphFuel g) f1 [] [] trips with
      | err e => rw [he] at h; exact PyResult.noConfusion h
      | ok vt =>
        rw [he] at h
        exact findTripsLoop_mono g rule dest start rest vt.2 out h p
          (hexp trips vt.1 vt.2 (by rw [he]))
    · by_cases hs : start ≤ f.departure
      · rw [if_pos hs] at h
        cases he : explore g rule dest (graphFuel g) f [] [] trips with
        | err e => rw [he] at h; exact PyResult.noConfusion h
        | ok vt =>
          rw [he] at h
          exact findTripsLoop_reach g rule dest start f1 p hdep hexp rest
            vt.2 out hmem2 h
      · rw [if_neg hs] at h
        exact findTripsLoop_reach g rule dest start f1 p hdep hexp rest
          trips out hmem2 h

/-- Claim C1 (amended): completeness holds for paths of at most two legs —
every path satisfying the stated constraints whose length is 1 or 2 appears
in the list a successful `find_trips` run returns.  (Paths with three or
more legs can be dropped by the visited-airport retention, see the
counterexample.) -/
theorem find_trips_complete_up_to_two_legs (g : Graph)
    (rule : Option LayoverPred) (origin dest : String) (start : Int)
    (ts : List (List Flight)) (p : List Flight) (hwf : WFGraph g)
    (h : find_trips g rule origin dest start = .ok ts)
    (hp : isValidTripB g rule origin dest start p = true)
    (hlen : p.length ≤ 2) : p ∈ ts := by
  simp only [isValidTripB, Bool.and_eq_true] at hp
  obtain ⟨hsound, hall⟩ := hp
  have hall2 : ∀ f ∈ p, flightInGraph g f := by
    intro f hf
    exact of_decide_eq_true (List.all_eq_true.mp hall f hf)
  rcases soundTripB_elim hsound with
    ⟨hne, hhead, hchain, hlay, hnodup, hlast, hpre⟩
  unfold find_trips at h
  match p, hne, hhead, hchain, hlay, hnodup, hlast, hpre, hall2, hlen with
  | [f1], _, hhead, _, _, _, hlast, _, hall2, _ =>
    simp only [headOkB, List.head?_cons, Bool.and_eq_true, beq_iff_eq,
      decide_eq_true_eq] at hhead
    simp only [lastOkB, List.getLast?_singleton, beq_iff_eq] at hlast
    rcases flightInGraph_bucket (hall2 f1 (List.mem_singleton.mpr rfl)) with
      ⟨fs, hget, hmem⟩
    rw [hhead.1] at hget
    rw [hget, Option.getD_some] at h
    refine findTripsLoop_reach g rule dest start f1 [f1] hhead.2 ?_ fs [] ts
      hmem h
    intro trips v2 t2 hx
    have := explore_hit g rule dest f1 hlast (graphFuel g) [] [] trips v2 t2 hx
    simpa using this
  | [f1, f2], _, hhead, hchain, hlay, hnodup, hlast, hpre, hall2, _ =>
    simp only [headOkB, List.head?_cons, Bool.and_eq_true, beq_iff_eq,
      decide_eq_true_eq] at hhead
    simp only [lastOkB, List.getLast?_cons_cons, List.getLast?_singleton,
      beq_iff_eq] at hlast
    simp only [chainB, Bool.and_eq_true, beq_iff_eq] at hchain
    simp only [layoverB, Bool.and_eq_true] at hlay
    simp only [preDestsB] at hpre
    rw [show ([f1, f2] : List Flight).dropLast = [f1] from rfl] at hpre
    simp only [List.all_cons, List.all_nil, Bool.and_true,
      Bool.not_eq_true', beq_eq_false_iff_ne] at hpre
    rw [show tripAirports [f1, f2]
        = [f1.origin, f1.destination, f2.destination] from rfl] at hnodup
    simp only [List.nodup_cons, List.mem_cons, List.mem_singleton,
      List.not_mem_nil, or_false, not_or, List.nodup_nil, and_true] at hnodup
    have hdo : dest ≠ f1.origin := by
      rw [← hlast]
      exact fun he => hnodup.1.2 he.symm
    rcases flightInGraph_bucket (hall2 f1 (List.mem_cons_self _ _)) with
      ⟨fs, hget, hmem⟩
    rw [hhead.1] at hget
    rw [hget, Option.getD_some] at h
    refine findTripsLoop_reach g rule dest start f1 [f1, f2] hhead.2 ?_ fs
      [] ts hmem h
    intro trips v2 t2 hx
    have := explore_two g rule dest hwf f1 f2 hchain.1
      (hall2 f2 (List.mem_cons_of_mem _ (List.mem_singleton.mpr rfl)))
      hlay.1 hlast hpre (graphFuel g) [] [] trips v2 t2
      (List.not_mem_nil dest) hdo hx
    simpa using this
  | f1 :: f2 :: f3 :: rest, _, _, _, _, _, _, _, _, hlen =>
    simp at hlen

/-- Claim C1, witness: the amended completeness applied on `gRetain` to the
two-leg valid path through the second B→C flight with destination C (where
no retention interferes): it is a member of the returned list. -/
theorem find_trips_complete_up_to_two_legs_witness :
    (WFGraph gRetain ∧
      find_trips gRetain none "A" "C" 0 = .ok [[fAB1, fBC1], [fAB1, fBC2]] ∧
      isValidTripB gRetain none "A" "C" 0 [fAB1, fBC2] = true ∧
      ([fAB1, fBC2] : List Flight).length ≤ 2) ∧
    [fAB1, fBC2] ∈ [[fAB1, fBC1], [fAB1, fBC2]] :=
  ⟨⟨by decide, by decide, by decide, by decide⟩,
    find_trips_complete_up_to_two_legs gRetain none "A" "C" 0
      [[fAB1, fBC1], [fAB1, fBC2]] [fAB1, fBC2] (by decide) (by decide)
      (by decide) (by decide)⟩

/-! ### Claim C5: total price -/

theorem flightInGraph_graphMem {g : Graph} {f : Flight}
    (h : flightInGraph g f) : graphMem g f := by
  unfold flightInGraph graphGet at h
  cases hf : g.find? (fun p => p.fst == f.origin) with
  | none => rw [hf] at h; simp at h
  | some kfs =>
    rw [hf] at h
    exact ⟨kfs, List.mem_of_find?_eq_some hf, h⟩

theorem graphMem_graphInsert {f f0 : Flight} :
    ∀ {g : Graph}, graphMem (graphInsert g f0) f → graphMem g f ∨ f = f0 := by
  intro g
  induction g with
  | nil =>
    rintro ⟨kfs, hk, hf⟩
    simp only [graphInsert, List.mem_singleton] at hk
    subst hk
    simp only [List.mem_singleton] at hf
    exact Or.inr hf
  | cons p rest ih =>
    rcases p with ⟨k, fs⟩
    intro h
    simp only [graphInsert] at h
    by_cases hk : k = f0.origin
    · rw [if_pos hk] at h
      rcases h with ⟨kfs, hkfs, hf⟩
      rcases List.mem_cons.mp hkfs with rfl | hkfs
      · rcases List.mem_append.mp hf with hf | hf
        · exact Or.inl ⟨(k, fs), List.mem_cons_self _ _, hf⟩
        · exact Or.inr (List.mem_singleton.mp hf)
      · exact Or.inl ⟨kfs, List.mem_cons_of_mem _ hkfs, hf⟩
    · rw [if_neg hk] at h
      rcases h with ⟨kfs, hkfs, hf⟩
      rcases List.mem_cons.mp hkfs with rfl | hkfs
      · exact Or.inl ⟨(k, fs), List.mem_cons_self _ _, hf⟩
      · rcases ih ⟨kfs, hkfs, hf⟩ with h | h
        · rcases h with ⟨kfs2, hk2, hf2⟩
          exact Or.inl ⟨kfs2, List.mem_cons_of_mem _ hk2, hf2⟩
        · exact Or.inr h

theorem createGraphAux_provenance :
    ∀ (rs : List FlightRecord) (g g2 : Graph),
      createGraphAux g rs = some g2 → ∀ f, graphMem g2 f →
        graphMem g f ∨ ∃ r ∈ rs, mkFlight r = some f
  | [], g, g2, h, f, hf => by
    simp only [createGraphAux, Option.some.injEq] at h
    subst h
    exact Or.inl hf
  | r :: rs, g, g2, h, f, hf => by
    simp only [createGraphAux] at h
    cases hr : mkFlight r with
    | none => rw [hr] at h; exact absurd h (by simp)
    | some f0 =>
      rw [hr] at h
      rcases createGraphAux_provenance rs (graphInsert g f0) g2 h f hf with h2 | h2
      · rcases graphMem_graphInsert h2 with h3 | h3
        · exact Or.inl h3
        · exact Or.inr ⟨r, List.mem_cons_self _ _, h3 ▸ hr⟩
      · rcases h2 with ⟨r2, hr2, hf2⟩
        exact Or.inr ⟨r2, List.mem_cons_of_mem _ hr2, hf2⟩

theorem mkFlight_prices {r : FlightRecord} {f : Flight}
    (h : mkFlight r = some f) :
    f.base_price = r.base_price.val ∧ (f.bag_price : Rat) = r.bag_price.val := by
  unfold mkFlight at h
  cases hbp : r.bag_price.pyInt with
  | none => rw [hbp] at h; exact absurd h (by simp)
  | some bp =>
    cases hba : r.bags_allowed.pyInt with
    | none => rw [hbp, hba] at h; exact absurd h (by simp)
    | some ba =>
      rw [hbp, hba, Option.some.injEq] at h
      subst h
      refine ⟨rfl, ?_⟩
      show (bp : Rat) = r.bag_price.val
      unfold NumStr.pyInt at hbp
      cases hfr : r.bag_price.frac with
      | none =>
        rw [hfr, Option.some.injEq] at hbp
        subst hbp
        unfold NumStr.val
        rw [hfr]
        cases hneg : r.bag_price.neg with
        | false => simp
        | true => simp
      | some dk => rw [hfr] at hbp; exact absurd hbp (by simp)

/-- Claim C5: for any itinerary whose legs all come from a graph built
from validated records, the total price is exactly the sum over its legs
of (base price + bag count × per-bag price), and each leg's prices equal
the decimal values of its originating record.  (Construction only succeeds
when every per-bag cell is an integer literal, so the stored integer
per-bag price coincides with the record's decimal value.) -/
theorem total_price_formula (rs : List FlightRecord) (g : Graph)
    (trip : List Flight) (bags : Int) (destination origin : String)
    (hval : ∀ r ∈ rs, validRecord r = true)
    (hg : create_graph rs = some g)
    (htrip : ∀ f ∈ trip, flightInGraph g f)
    (hbags : 0 ≤ bags) :
    (mkFlightTrip trip bags destination origin).total_price
        = (trip.map (fun f => f.base_price + (bags : Rat) * (f.bag_price : Rat))).sum
      ∧ ∀ f ∈ trip, ∃ r ∈ rs, f.base_price = r.base_price.val ∧
          (f.bag_price : Rat) = r.bag_price.val := by
  constructor
  · show trip.foldl (fun acc f => acc + f.get_full_price bags) 0 = _
    rw [foldl_add_hom (fun f => f.get_full_price bags) trip 0, zero_add]
    rfl
  · intro f hf
    have hm := flightInGraph_graphMem (htrip f hf)
    rcases createGraphAux_provenance rs [] g hg f hm with h | ⟨r, hr, hrf⟩
    · rcases h with ⟨kfs, hk, _⟩
      exact absurd hk (List.not_mem_nil kfs)
    · exact ⟨r, hr, mkFlight_prices hrf⟩

/-- Claim C5, witness: the formula instantiated on the one-record stream
`[recAB]`, the graph it builds, and the one-leg itinerary over its flight
with two requested bags. -/
theorem total_price_formula_witness :
    ((∀ r ∈ [recAB], validRecord r = true) ∧
      create_graph [recAB] = some [("A", [fABrec])] ∧
      (∀ f ∈ [fABrec], flightInGraph [("A", [fABrec])] f) ∧ (0 : Int) ≤ 2) ∧
    ((mkFlightTrip [fABrec] 2 "B" "A").total_price
        = ([fABrec].map (fun f => f.base_price + ((2 : Int) : Rat) * (f.bag_price : Rat))).sum
      ∧ ∀ f ∈ [fABrec], ∃ r ∈ [recAB], f.base_price = r.base_price.val ∧
          (f.bag_price : Rat) = r.bag_price.val) :=
  ⟨⟨by decide, by decide, by decide, by decide⟩,
    total_price_formula [recAB] [("A", [fABrec])] [fABrec] 2 "B" "A"
      (by decide) (by decide) (by decide) (by decide)⟩

/-! ### Claim C7: ordering of the aggregated output -/

/-- Claim C7: the aggregator output is a permutation of the itineraries
built from its input sequences in input order, it is sorted non-decreasing
by total price, and the sort is stable: filtering the output by any fixed
total price yields exactly the same-price itineraries in input order. -/
theorem add_trips_sorted_stable (trips : List (List Flight))
    (origin destination : String) (bags : Int) :
    (add_trips trips origin destination bags).Perm
        (trips.map (fun fs => mkFlightTrip fs bags destination origin)) ∧
    List.Sorted tripLE (add_trips trips origin destination bags) ∧
    ∀ c : Rat,
      (add_trips trips origin destination bags).filter
          (fun t => decide (t.total_price = c))
        = (trips.map (fun fs => mkFlightTrip fs bags destination origin)).filter
          (fun t => decide (t.total_price = c)) := by
  refine ⟨List.perm_insertionSort _ _, List.sorted_insertionSort _ _, ?_⟩
  intro c
  set inp := trips.map (fun fs => mkFlightTrip fs bags destination origin) with hinp
  set q : FlightTrip → Bool := fun t => decide (t.total_price = c) with hq
  have hmemq : ∀ t ∈ inp.filter q, t.total_price = c := by
    intro t ht
    have := (List.mem_filter.mp ht).2
    rw [hq] at this
    exact of_decide_eq_true this
  have hpair : (inp.filter q).Pairwise tripLE := by
    apply List.pairwise_of_forall_mem_list
    intro a ha b hb
    show a.total_price ≤ b.total_price
    rw [hmemq a ha, hmemq b hb]
  have hsub : List.Sublist (inp.filter q) (List.insertionSort tripLE inp) :=
    List.sublist_insertionSort hpair (List.filter_sublist inp)
  have hsub2 : List.Sublist (inp.filter q)
      ((List.insertionSort tripLE inp).filter q) := by
    have h2 := hsub.filter q
    rwa [List.filter_eq_self.mpr (fun a ha => (List.mem_filter.mp ha).2)] at h2
  have hperm : ((List.insertionSort tripLE inp).filter q).Perm (inp.filter q) :=
    (List.perm_insertionSort tripLE inp).filter q
  exact (hsub2.eq_of_length hperm.length_eq.symm).symm

/-! ### Claim C4: reverse composition semantics -/

theorem findTripsRevLoop_char (g : Graph) (rule : Option LayoverPred)
    (origin dest : String) :
    ∀ (tripsL acc R : List (List Flight)),
      findTripsRevLoop g rule origin dest tripsL acc = .ok R →
      ∀ t, t ∈ R ↔ t ∈ acc ∨ ∃ P ∈ tripsL, ∃ lastF, P.getLast? = some lastF ∧
        ∃ RT, find_trips g rule dest origin lastF.arrival = .ok RT ∧
          ∃ Q ∈ RT, t = P ++ Q
  | [], acc, R, h, t => by
    simp only [findTripsRevLoop, PyResult.ok.injEq] at h
    subst h
    simp
  | trip :: rest, acc, R, h, t => by
    simp only [findTripsRevLoop] at h
    cases hlast : trip.getLast? with
    | none => simp only [hlast] at h; exact PyResult.noConfusion h
    | some lastF =>
      simp only [hlast] at h
      cases hft : find_trips g rule dest origin lastF.arrival with
      | err e => simp only [hft] at h; exact PyResult.noConfusion h
      | ok rts =>
        simp only [hft] at h
        have ih := findTripsRevLoop_char g rule origin dest rest
          (acc ++ rts.map (fun rt => trip ++ rt)) R h t
        rw [ih, List.mem_append]
        constructor
        · rintro ((hacc | hmap) | ⟨P, hP, lF, hlF, RT, hRT, Q, hQ, rfl⟩)
          · exact Or.inl hacc
          · rcases List.mem_map.mp hmap with ⟨Q, hQ, rfl⟩
            exact Or.inr ⟨trip, List.mem_cons_self _ _, lastF, hlast, rts, hft,
              Q, hQ, rfl⟩
          · exact Or.inr ⟨P, List.mem_cons_of_mem _ hP, lF, hlF, RT, hRT,
              Q, hQ, rfl⟩
        · rintro (hacc | ⟨P, hP, lF, hlF, RT, hRT, Q, hQ, rfl⟩)
          · exact Or.inl (Or.inl hacc)
          · rcases List.mem_cons.mp hP with rfl | hP
            · rw [hlast, Option.some.injEq] at hlF
              subst hlF
              rw [hft, PyResult.ok.injEq] at hRT
              subst hRT
              exact Or.inl (Or.inr (List.mem_map.mpr ⟨Q, hQ, rfl⟩))
            · exact Or.inr ⟨P, hP, lF, hlF, RT, hRT, Q, hQ, rfl⟩

/-- Claim C4: a successful `find_trips_reverse` returns exactly the
concatenations `P ++ Q` where `P` is an outbound trip of the forward
search's result and `Q` is a trip of the second, independent forward
search from the destination whose lower bound is the arrival time of `P`'s
final leg; the only constraint at the seam is that lower bound (no layover
rule is consulted there), and an outbound trip with no compatible return
contributes nothing. -/
theorem find_trips_reverse_characterization (g : Graph)
    (rule : Option LayoverPred) (origin dest : String) (start : Int)
    (R : List (List Flight))
    (h : find_trips_reverse g rule origin dest start = .ok R) :
    ∃ T, find_trips g rule origin dest start = .ok T ∧
      ∀ t, t ∈ R ↔ ∃ P ∈ T, ∃ lastF, P.getLast? = some lastF ∧
        ∃ RT, find_trips g rule dest origin lastF.arrival = .ok RT ∧
          ∃ Q ∈ RT, t = P ++ Q := by
  unfold find_trips_reverse at h
  cases hT : find_trips g rule origin dest start with
  | err e => simp only [hT] at h; exact PyResult.noConfusion h
  | ok T =>
    simp only [hT] at h
    refine ⟨T, rfl, fun t => ?_⟩
    have := findTripsRevLoop_char g rule origin dest T [] R h t
    simpa using this

/-- Claim C4, witness: the characterization instantiated on `gSeam`, whose
return leg departs exactly when the outbound leg arrives: the seam gap is
0 hours and violates the installed minimum layover of 1 hour, yet the
combined itinerary is produced. -/
theorem find_trips_reverse_characterization_witness :
    (find_trips_reverse gSeam (some (defaultLayoverRule 1 6)) "A" "B" 0
        = .ok [[fSeamOut, fSeamRet]]) ∧
    fSeamRet.departure - fSeamOut.arrival = 0 ∧
    is_valid_layover (some (defaultLayoverRule 1 6)) fSeamOut fSeamRet = false ∧
    (∃ T, find_trips gSeam (some (defaultLayoverRule 1 6)) "A" "B" 0 = .ok T ∧
      ∀ t, t ∈ [[fSeamOut, fSeamRet]] ↔ ∃ P ∈ T, ∃ lastF,
        P.getLast? = some lastF ∧
        ∃ RT, find_trips gSeam (some (defaultLayoverRule 1 6)) "B" "A"
            lastF.arrival = .ok RT ∧ ∃ Q ∈ RT, t = P ++ Q) :=
  ⟨by decide, by decide, by decide,
    find_trips_reverse_characterization gSeam (some (defaultLayoverRule 1 6))
      "A" "B" 0 [[fSeamOut, fSeamRet]] (by decide)⟩

/-! ### Claim C2: totality of query execution -/

/-- Claim C2: the graph built from the single record A→B is well-formed,
but querying it for an unreachable destination Z raises `KeyError`
(`self.graph[flight.destination]` with destination B having no bucket),
contradicting the claim that such queries return an empty list. -/
theorem dead_end_destination_raises_keyerror :
    create_graph [recAB] = some [("A", [fABrec])] ∧
    find_trips [("A", [fABrec])] none "A" "Z" 0 = .err .keyError ∧
    find_trips_reverse [("A", [fABrec])] none "A" "Z" 0 = .err .keyError := by
  decide

/-! ### Claim C10: round trips may revisit an intermediate airport -/

/-- Claim C10: on `gRoundX` the combined round trip returned by
`find_trips_reverse` passes through the intermediate airport X in the
outbound half and again in the return half — the fresh visited set of the
second search does not see the first half's airports. -/
theorem round_trip_revisits_intermediate :
    find_trips gRoundX none "A" "B" 0 = .ok [[fAX, fXB]] ∧
    find_trips_reverse gRoundX none "A" "B" 0 = .ok [[fAX, fXB, fBX, fXA]] ∧
    fAX.destination = "X" ∧ fBX.destination = "X" ∧
    (tripAirports [fAX, fXB, fBX, fXA]).count "X" = 2 ∧
    "X" ≠ "A" ∧ "X" ≠ "B" := by
  decide

/-! ### Claim C1, counterexample -/

/-- Claim C1, counterexample: on `gRetain` the path through the second
B→C flight satisfies every stated constraint, but `find_trips` misses it:
exploring the first B→C flight leaves airport C in the visited set
(`is_correct_trip` is false whenever the flight did not itself land at the
destination), so the later branch through C is blocked. -/
theorem retention_drops_valid_path :
    isValidTripB gRetain none "A" "Z" 0 [fAB1, fBC2, fCZ1] = true ∧
    find_trips gRetain none "A" "Z" 0 = .ok [[fAB1, fBC1, fCZ1]] ∧
    [fAB1, fBC2, fCZ1] ∉ [[fAB1, fBC1, fCZ1]] := by
  decide

end FlightSearch
